import Mathlib

/-!
Verification development for the qalgebra rewriting engine.

The development shallowly embeds the parts of the qalgebra code base that
the checked properties speak about:

* `sorted_if_possible` from src/qalgebra/utils/containers.py, together
  with a model of Python's partial comparison semantics;
* the indexed-sum rule tables installed by src/qalgebra/_rules.py for
  ScalarIndexedSum, OperatorIndexedSum and KetIndexedSum, over a model
  of the wildcard pattern matcher and of match_replace;
* the super-operator algebra of src/qalgebra/core/super_operator_algebra.py
  (SuperOperatorPlus, SuperOperatorTimes, SuperCommutativeHSOrder, the
  registered binary rules) over a model of the normalization pipeline
  (assoc, orderby, filter_neutral, collect_summands, match_replace_binary).

Components of the engine that are not part of the sources
(core/abstract_algebra.py, core/algebraic_properties.py,
pattern_matching.py, utils/ordering.py, utils/indices.py) are modelled
from the specification; each such definition says so in its doc comment.
-/

namespace QalgebraProof

/-! ## Python values and sorted_if_possible (src/qalgebra/utils/containers.py) -/

/-- Python runtime values as they reach sorted_if_possible in this code
base: integers and strings (string content is abstracted to a numeric
code).  Python compares two ints or two strs, and raises TypeError when
comparing an int with a str. -/
inductive PyVal where
  | int (n : Int)
  | str (s : Nat)
deriving DecidableEq

/-- Python comparison a < b: defined within one type, TypeError (none)
across types. -/
def pyLt : PyVal → PyVal → Option Bool
  | .int a, .int b => some (decide (a < b))
  | .str a, .str b => some (decide (a < b))
  | _, _ => none

/-- Stable insertion of x into an already sorted list, threading the
possibility of a TypeError raised by a comparison. -/
def pyInsert (lt : α → α → Option Bool) (x : α) : List α → Except Unit (List α)
  | [] => .ok [x]
  | y :: ys =>
    match lt x y with
    | none => .error ()
    | some true => .ok (x :: y :: ys)
    | some false =>
      match pyInsert lt x ys with
      | .ok rest => .ok (y :: rest)
      | .error e => .error e

/-- Python's sorted(): a stable comparison sort that either returns a
sorted permutation of the input or raises TypeError if it hits a pair of
unorderable elements. -/
def pySorted (lt : α → α → Option Bool) (l : List α) : Except Unit (List α) :=
  l.foldlM (fun acc x => pyInsert lt x acc) []

/-- A finite Python iterable: its elements in iteration order, and whether
it is a one-shot iterator (a generator or map object, exhausted after a
single traversal) rather than a re-iterable sequence. -/
structure PyIterable (α : Type) where
  elems : List α
  oneShot : Bool

/-- sorted_if_possible from src/qalgebra/utils/containers.py: evaluate
sorted(iterable); on TypeError fall back to list(iterable).  sorted()
consumes the iterable before sorting, so when the argument is a one-shot
iterator the fallback list(iterable) observes an exhausted iterator and
yields the empty list. -/
def sorted_if_possible (lt : α → α → Option Bool) (it : PyIterable α) : List α :=
  match pySorted lt it.elems with
  | .ok l => l
  | .error _ => if it.oneShot then [] else it.elems

/-- C10: totality of fallback sorting.  The claim states that for every
finite iterable the function returns a permutation of the iterable's
elements (sorted when mutually orderable, in iteration order otherwise)
and never propagates a TypeError.  Evaluating the code at a one-shot
iterator of unorderable elements — exactly what the map(...) calls in
nested_tuple pass in — shows the fallback returns the empty list, not a
permutation: sorted() consumed the iterator before raising TypeError, so
the fallback list(iterable) is empty.  For a re-iterable sequence input
the fallback does return the elements in iteration order. -/
theorem sorted_if_possible_loses_oneshot_elements :
    sorted_if_possible pyLt ⟨[PyVal.int 1, PyVal.str 0], true⟩ = [] ∧
    ¬ List.Perm ([] : List PyVal) [PyVal.int 1, PyVal.str 0] ∧
    sorted_if_possible pyLt ⟨[PyVal.int 1, PyVal.str 0], false⟩ =
      [PyVal.int 1, PyVal.str 0] ∧
    sorted_if_possible pyLt ⟨[PyVal.int 3, PyVal.int 1, PyVal.int 2], true⟩ =
      [PyVal.int 1, PyVal.int 2, PyVal.int 3] := by
  refine ⟨rfl, ?_, rfl, rfl⟩
  intro h
  exact absurd (h.length_eq) (by simp)

/-! ## Indexed sums and the rule tables of src/qalgebra/_rules.py

The expression fragment below embeds what the three indexed-sum rule
tables inspect: the additive identity of each domain (Zero, ZeroOperator,
ZeroKet), symbols carrying their sympy free symbols, a scalar coefficient
times an expression (ScalarTimes, ScalarTimesOperator, ScalarTimesKet)
and the indexed sums themselves (ScalarIndexedSum, OperatorIndexedSum,
KetIndexedSum). -/

/-- The three quantum domains owning an indexed-sum kind. -/
inductive Dom where
  | scalar
  | oper
  | ket
deriving DecidableEq

/-- Modelled from the spec: the payload of an index range
(utils/indices.py is not part of the sources) binds the index to a finite
list, a symbolic cardinality, or the basis of a Hilbert space.  The sum
rules never inspect the payload; they only read index_symbol. -/
inductive RangePayload where
  | finiteList (elems : List Int)
  | symbolicCard (n : Nat)
  | fockBasis (hs : Nat)
deriving DecidableEq

/-- An index range: one bound index symbol plus its payload. -/
structure IdxRange where
  index_symbol : Nat
  payload : RangePayload
deriving DecidableEq

/-- Expression fragment for the indexed-sum rules. -/
inductive QE where
  | zero (d : Dom)
  | sym (d : Dom) (label : Nat) (fs : List Nat)
  | scalTimes (d : Dom) (coeff : QE) (term : QE)
  | indexedSum (d : Dom) (term : QE) (ranges : List IdxRange)
deriving DecidableEq

/-- Domain of an expression. -/
def QE.dom : QE → Dom
  | .zero d => d
  | .sym d _ _ => d
  | .scalTimes d _ _ => d
  | .indexedSum d _ _ => d

/-- Sympy-style free symbols: a symbol carries its own, a product unites
the factors' symbols, and a sum's bound index symbols are not free. -/
def QE.free_symbols : QE → List Nat
  | .zero _ => []
  | .sym _ _ fs => fs
  | .scalTimes _ c t => c.free_symbols ++ t.free_symbols
  | .indexedSum _ t ranges =>
      t.free_symbols.filter
        (fun s => !((ranges.map IdxRange.index_symbol).contains s))

/-! ### Pattern matcher (modelled from the spec; pattern_matching.py is
not part of the sources). -/

/-- A pattern leaf or structural pattern: a wildcard with a capture name
and head constraint, a literal matched by equality, or the structural
pattern pattern(ScalarTimes-like head, coeff_pat, term_pat). -/
inductive Pat where
  | wc (name : Nat) (headOK : QE → Bool)
  | lit (v : QE)
  | scalTimesPat (d : Dom) (coeff : Pat) (term : Pat)

/-- Modelled from the spec: the pre-canonical proto-form the rule
patterns are matched against: positional args plus the only keyword
argument occurring in this fragment, ranges. -/
structure ProtoExpr where
  args : List QE
  ranges : Option (List IdxRange)
deriving DecidableEq

/-- A binding mapping produced by a successful match: positional capture
names to expressions, plus the binding of a kwargs-only ranges wildcard. -/
structure Bindings where
  vals : List (Nat × QE)
  rangesBind : Option (Nat × List IdxRange)
deriving DecidableEq

def Bindings.empty : Bindings := ⟨[], none⟩

def Bindings.lookupVal (b : Bindings) (n : Nat) : Option QE :=
  match b.vals.find? (fun p => p.1 == n) with
  | some p => some p.2
  | none => none

/-- Bind a capture name, enforcing the consistency constraint: a name
bound twice must bind to equal values or the match fails. -/
def Bindings.bindVal (b : Bindings) (n : Nat) (v : QE) : Option Bindings :=
  match b.lookupVal n with
  | some w => if w = v then some b else none
  | none => some { b with vals := b.vals ++ [(n, v)] }

/-- Match one pattern against one candidate expression, threading the
bindings.  A wildcard matches iff the candidate satisfies the head
constraint; a literal matches by structural equality; a structural
pattern requires the same kind and matches the children recursively. -/
def matchPat : Pat → QE → Bindings → Option Bindings
  | .wc n hd, v, b => if hd v then b.bindVal n v else none
  | .lit p, v, b => if p = v then some b else none
  | .scalTimesPat d pc pt, v, b =>
      match v with
      | .scalTimes d2 c t =>
          if d = d2 then
            match matchPat pc c b with
            | some b2 => matchPat pt t b2
            | none => none
          else none
      | _ => none

/-- Positional matching: same arity required, children matched in order
with bindings merged. -/
def matchArgs : List Pat → List QE → Bindings → Option Bindings
  | [], [], b => some b
  | p :: ps, v :: vs, b =>
      match matchPat p v b with
      | some b2 => matchArgs ps vs b2
      | none => none
  | _, _, _ => none

/-- pattern_head(arg_patterns..., ranges=wc): the positional argument
patterns plus an optional kwargs-only wildcard for ranges. -/
structure PatternHead where
  argPats : List Pat
  rangesWc : Option Nat

/-- Match a pattern head against a proto-expression: positional patterns
match the positional args (same arity), and a ranges wildcard, when
present, binds the ranges keyword argument (failing if absent). -/
def matchProto (p : PatternHead) (e : ProtoExpr) : Option Bindings :=
  match matchArgs p.argPats e.args Bindings.empty with
  | none => none
  | some b =>
      match p.rangesWc with
      | none => some b
      | some n =>
          match e.ranges with
          | some r => some { b with rangesBind := some (n, r) }
          | none => none

/-! ### Rule tables and match_replace (modelled from the spec;
core/algebraic_properties.py is not part of the sources). -/

/-- Signals a handler can raise: the CannotSimplify control-flow signal
of core/exceptions.py, or a genuine algebra error. -/
inductive Sig where
  | cannotSimplify
  | algebraError (code : Nat)
deriving DecidableEq

/-- A rule: a pattern head plus a handler computing the replacement from
the bindings or raising a signal. -/
structure Rule where
  pat : PatternHead
  handler : Bindings → Except Sig QE

/-- Modelled from the spec: match_replace iterates the rule table in
registration order; the first rule whose pattern matches has its handler
invoked; a CannotSimplify raised by the handler is caught here and the
next rule is tried; exhausting the rules returns the node unchanged; any
other error propagates. -/
def match_replace (rules : List Rule) (proto : ProtoExpr) (node : QE) :
    Except Sig QE :=
  match rules with
  | [] => .ok node
  | r :: rest =>
      match matchProto r.pat proto with
      | none => match_replace rest proto node
      | some b =>
          match r.handler b with
          | .ok v => .ok v
          | .error .cannotSimplify => match_replace rest proto node
          | .error e => .error e

/-! ### The concrete indexed-sum rule tables (src/qalgebra/_rules.py). -/

/-- Head constraint of a wildcard declared with head=SCALAR_TYPES,
head=Operator or head=State: the candidate's domain must fit. -/
def headOfDom (d : Dom) (q : QE) : Bool := q.dom == d

/-- Head constraint of wc("indranges", head=tuple) when used as a
positional pattern: a positional argument of a proto-expression is an
expression node, never a Python tuple, so the test always fails. -/
def headTuple (_ : QE) : Bool := false

/-- pull_constfactor_from_sum of src/qalgebra/_rules.py (lines 139-144,
656-661 and 1355-1360): if the coefficient's free symbols are disjoint
from the set of bound index symbols, return
coefficient * IndexedSum.create(term, ranges=indranges); otherwise raise
CannotSimplify. -/
def pull_constfactor_from_sum (d : Dom)
    (create : QE → List IdxRange → Except Sig QE)
    (x y : QE) (indranges : List IdxRange) : Except Sig QE :=
  let bound_symbols := indranges.map IdxRange.index_symbol
  if x.free_symbols.all (fun s => !(bound_symbols.contains s)) then
    match create y indranges with
    | .ok s => .ok (QE.scalTimes d x s)
    | .error e => .error e
  else
    .error .cannotSimplify

/-- The rules installed on ScalarIndexedSum._rules by
_algebraic_rules_scalar (src/qalgebra/_rules.py lines 146-164): R001
matches pattern_head(Zero, ranges=indranges) and rewrites to Zero; R002
matches pattern_head(pattern(ScalarTimes, x, y), indranges) — note that
indranges (declared wc("indranges", head=tuple)) is a second POSITIONAL
pattern argument here, unlike the operator and ket tables which pass it
as the keyword pattern ranges=indranges — and pulls the constant factor
out of the sum.  Capture names: x is 0, y is 1, indranges is 2. -/
def scalarIndexedSumRules (create : QE → List IdxRange → Except Sig QE) :
    List Rule :=
  [ { pat := { argPats := [Pat.lit (QE.zero Dom.scalar)], rangesWc := some 2 },
      handler := fun _ => .ok (QE.zero Dom.scalar) },
    { pat := { argPats := [Pat.scalTimesPat Dom.scalar
                  (Pat.wc 0 (headOfDom Dom.scalar))
                  (Pat.wc 1 (headOfDom Dom.scalar)),
                Pat.wc 2 headTuple],
               rangesWc := none },
      handler := fun b =>
        match b.lookupVal 0, b.lookupVal 1, b.rangesBind with
        | some x, some y, some (_, ir) =>
            pull_constfactor_from_sum Dom.scalar create x y ir
        | _, _, _ => .error (Sig.algebraError 0) } ]

/-- The rules installed on OperatorIndexedSum._rules (src lines 663-684)
and KetIndexedSum._rules (src lines 1362-1382); the two tables have the
same shape: R001 matches pattern_head(ZeroOperator/ZeroKet,
ranges=indranges) and rewrites to the zero; R002 matches
pattern_head(pattern(ScalarTimesOperator/ScalarTimesKet, u, A-or-Psi),
ranges=indranges) and pulls the constant factor out of the sum.
Capture names: u is 0, A/Psi is 1, indranges is 2. -/
def operatorKetIndexedSumRules (d : Dom)
    (create : QE → List IdxRange → Except Sig QE) : List Rule :=
  [ { pat := { argPats := [Pat.lit (QE.zero d)], rangesWc := some 2 },
      handler := fun _ => .ok (QE.zero d) },
    { pat := { argPats := [Pat.scalTimesPat d
                  (Pat.wc 0 (headOfDom Dom.scalar))
                  (Pat.wc 1 (headOfDom d))],
               rangesWc := some 2 },
      handler := fun b =>
        match b.lookupVal 0, b.lookupVal 1, b.rangesBind with
        | some u, some a, some (_, ir) =>
            pull_constfactor_from_sum d create u a ir
        | _, _, _ => .error (Sig.algebraError 1) } ]

/-- The rule table of the indexed-sum kind of each domain. -/
def indexedSumRules (d : Dom)
    (create : QE → List IdxRange → Except Sig QE) : List Rule :=
  match d with
  | .scalar => scalarIndexedSumRules create
  | .oper => operatorKetIndexedSumRules Dom.oper create
  | .ket => operatorKetIndexedSumRules Dom.ket create

/-- Modelled from the spec: canonical construction of an indexed sum,
IndexedSum.create(term, ranges=ranges): run match_replace for the kind's
rule table over the proto-form whose single positional argument is the
term and whose ranges are a keyword argument; exhausted rules leave the
node unchanged.  The fuel bounds the handlers' re-entry into create; a
fuel-out re-entry leaves the inner sum unsimplified. -/
def createIndexedSum : Nat → Dom → QE → List IdxRange → Except Sig QE
  | 0, d, term, ranges =>
      match_replace
        (indexedSumRules d (fun t r => Except.ok (QE.indexedSum d t r)))
        { args := [term], ranges := some ranges }
        (QE.indexedSum d term ranges)
  | fuel + 1, d, term, ranges =>
      match_replace
        (indexedSumRules d (fun t r => createIndexedSum fuel d t r))
        { args := [term], ranges := some ranges }
        (QE.indexedSum d term ranges)

/-- Helper: match_replace catches the CannotSimplify signal at the
rule-iteration boundary, so its result is never that signal. -/
theorem match_replace_no_cannotSimplify (rules : List Rule)
    (proto : ProtoExpr) (node : QE) :
    match_replace rules proto node ≠ .error Sig.cannotSimplify := by
  induction rules with
  | nil => simp [match_replace]
  | cons r rest ih =>
    simp only [match_replace]
    cases hm : matchProto r.pat proto with
    | none => simpa using ih
    | some b =>
      cases hh : r.handler b with
      | ok v => simp [hh]
      | error e =>
        cases e with
        | cannotSimplify => simpa [hh] using ih
        | algebraError c => simp [hh]

/-- C2: indexed-sum zero propagation.  For every indexed-sum kind
(scalar, operator or ket) and every tuple of ranges — of any number,
finite or symbolic — constructing the sum whose term is the additive
identity of the domain returns the additive identity.  The ranges are
universally quantified and never inspected (rule R001 only binds them),
so no range is evaluated. -/
theorem indexedSum_zero_propagation (fuel : Nat) (d : Dom)
    (ranges : List IdxRange) :
    createIndexedSum fuel d (QE.zero d) ranges = .ok (QE.zero d) := by
  cases fuel with
  | zero =>
    cases d <;>
      simp [createIndexedSum, indexedSumRules, scalarIndexedSumRules,
        operatorKetIndexedSumRules, match_replace, matchProto, matchArgs,
        matchPat, Bindings.empty]
  | succ f =>
    cases d <;>
      simp [createIndexedSum, indexedSumRules, scalarIndexedSumRules,
        operatorKetIndexedSumRules, match_replace, matchProto, matchArgs,
        matchPat, Bindings.empty]

/-- C3: constant pull-out guard, evaluated on the code.  For the operator
and ket indexed sums the claim holds: an index-free coefficient is pulled
out, and a coefficient containing a bound index makes the handler raise
CannotSimplify so that the sum is returned unchanged.  For the scalar
indexed sum, however, rule R002 declares indranges as a second positional
pattern argument while the proto-form carries the ranges as a keyword
argument, so the rule never matches: an index-free coefficient is NOT
pulled out of a scalar sum even though the handler, were it ever invoked,
would factor it (last conjunct).  Bound index symbols are 7 and 8;
symbol 10 has free symbol 5 (disjoint), symbol 12 has free symbol 7. -/
theorem indexedSum_pull_constfactor_guard :
    createIndexedSum 1 Dom.oper
        (QE.scalTimes Dom.oper (QE.sym Dom.scalar 10 [5]) (QE.sym Dom.oper 11 []))
        [⟨7, RangePayload.symbolicCard 3⟩, ⟨8, RangePayload.finiteList [1, 2]⟩]
      = .ok (QE.scalTimes Dom.oper (QE.sym Dom.scalar 10 [5])
          (QE.indexedSum Dom.oper (QE.sym Dom.oper 11 [])
            [⟨7, RangePayload.symbolicCard 3⟩, ⟨8, RangePayload.finiteList [1, 2]⟩])) ∧
    createIndexedSum 1 Dom.ket
        (QE.scalTimes Dom.ket (QE.sym Dom.scalar 10 [5]) (QE.sym Dom.ket 11 []))
        [⟨7, RangePayload.symbolicCard 3⟩, ⟨8, RangePayload.finiteList [1, 2]⟩]
      = .ok (QE.scalTimes Dom.ket (QE.sym Dom.scalar 10 [5])
          (QE.indexedSum Dom.ket (QE.sym Dom.ket 11 [])
            [⟨7, RangePayload.symbolicCard 3⟩, ⟨8, RangePayload.finiteList [1, 2]⟩])) ∧
    createIndexedSum 1 Dom.oper
        (QE.scalTimes Dom.oper (QE.sym Dom.scalar 12 [7]) (QE.sym Dom.oper 11 []))
        [⟨7, RangePayload.symbolicCard 3⟩, ⟨8, RangePayload.finiteList [1, 2]⟩]
      = .ok (QE.indexedSum Dom.oper
          (QE.scalTimes Dom.oper (QE.sym Dom.scalar 12 [7]) (QE.sym Dom.oper 11 []))
          [⟨7, RangePayload.symbolicCard 3⟩, ⟨8, RangePayload.finiteList [1, 2]⟩]) ∧
    pull_constfactor_from_sum Dom.oper
        (fun t r => .ok (QE.indexedSum Dom.oper t r))
        (QE.sym Dom.scalar 12 [7]) (QE.sym Dom.oper 11 [])
        [⟨7, RangePayload.symbolicCard 3⟩, ⟨8, RangePayload.finiteList [1, 2]⟩]
      = .error Sig.cannotSimplify ∧
    createIndexedSum 1 Dom.scalar
        (QE.scalTimes Dom.scalar (QE.sym Dom.scalar 10 [5]) (QE.sym Dom.scalar 11 []))
        [⟨7, RangePayload.symbolicCard 3⟩, ⟨8, RangePayload.finiteList [1, 2]⟩]
      = .ok (QE.indexedSum Dom.scalar
          (QE.scalTimes Dom.scalar (QE.sym Dom.scalar 10 [5]) (QE.sym Dom.scalar 11 []))
          [⟨7, RangePayload.symbolicCard 3⟩, ⟨8, RangePayload.finiteList [1, 2]⟩]) ∧
    pull_constfactor_from_sum Dom.scalar
        (fun t r => .ok (QE.indexedSum Dom.scalar t r))
        (QE.sym Dom.scalar 10 [5]) (QE.sym Dom.scalar 11 [])
        [⟨7, RangePayload.symbolicCard 3⟩, ⟨8, RangePayload.finiteList [1, 2]⟩]
      = .ok (QE.scalTimes Dom.scalar (QE.sym Dom.scalar 10 [5])
          (QE.indexedSum Dom.scalar (QE.sym Dom.scalar 11 [])
            [⟨7, RangePayload.symbolicCard 3⟩, ⟨8, RangePayload.finiteList [1, 2]⟩])) :=
  ⟨rfl, rfl, rfl, rfl, rfl, rfl⟩

/-- C4: containment of the cannot-simplify signal.  match_replace never
returns the CannotSimplify signal (first conjunct); a rule whose pattern
does not match, or whose handler raises CannotSimplify, makes iteration
continue with the next rule (second conjunct); exhausted rules return the
node unchanged (third conjunct); and the indexed-sum create built on
match_replace never propagates CannotSimplify to its caller, whatever the
input (fourth conjunct). -/
theorem cannotSimplify_containment :
    (∀ (rules : List Rule) (proto : ProtoExpr) (node : QE),
      match_replace rules proto node ≠ .error Sig.cannotSimplify) ∧
    (∀ (r : Rule) (rest : List Rule) (proto : ProtoExpr) (node : QE),
      (matchProto r.pat proto = none ∨
        (∃ b, matchProto r.pat proto = some b ∧
          r.handler b = .error Sig.cannotSimplify)) →
      match_replace (r :: rest) proto node = match_replace rest proto node) ∧
    (∀ (proto : ProtoExpr) (node : QE),
      match_replace [] proto node = .ok node) ∧
    (∀ (fuel : Nat) (d : Dom) (term : QE) (ranges : List IdxRange),
      createIndexedSum fuel d term ranges ≠ .error Sig.cannotSimplify) := by
  refine ⟨fun rules proto node => match_replace_no_cannotSimplify rules proto node,
    ?_, fun proto node => rfl, ?_⟩
  · intro r rest proto node h
    rcases h with h | ⟨b, hb, hh⟩
    · simp [match_replace, h]
    · simp [match_replace, hb, hh]
  · intro fuel d term ranges
    cases fuel with
    | zero => exact match_replace_no_cannotSimplify _ _ _
    | succ f => exact match_replace_no_cannotSimplify _ _ _

/-- Witness for C4: a rule whose pattern matches everything but whose
handler always raises CannotSimplify is skipped, and with no further
rules the node is returned unchanged. -/
theorem cannotSimplify_containment_witness :
    match_replace
        [⟨{ argPats := [Pat.wc 0 (fun _ => true)], rangesWc := none },
          fun _ => .error Sig.cannotSimplify⟩]
        { args := [QE.zero Dom.scalar], ranges := none }
        (QE.zero Dom.scalar)
      = .ok (QE.zero Dom.scalar) := by
  have h2 := cannotSimplify_containment.2.1
    ⟨{ argPats := [Pat.wc 0 (fun _ => true)], rangesWc := none },
      fun _ => .error Sig.cannotSimplify⟩ []
    { args := [QE.zero Dom.scalar], ranges := none } (QE.zero Dom.scalar)
  have h3 := cannotSimplify_containment.2.2.1
    { args := [QE.zero Dom.scalar], ranges := none } (QE.zero Dom.scalar)
  rw [h2 (Or.inr ⟨⟨[(0, QE.zero Dom.scalar)], none⟩, rfl, rfl⟩), h3]

/-- C7: binding consistency of repeated wildcards.  A pattern head with
the same capture name used twice matches a pair of equal candidates,
binding the name to the candidate, and fails on any pair of structurally
distinct candidates. -/
theorem repeated_wildcard_binding_consistency (n : Nat) (hd : QE → Bool)
    (x y : QE) (hx : hd x = true) :
    matchProto { argPats := [Pat.wc n hd, Pat.wc n hd], rangesWc := none }
        { args := [x, x], ranges := none }
      = some ⟨[(n, x)], none⟩ ∧
    (x ≠ y →
      matchProto { argPats := [Pat.wc n hd, Pat.wc n hd], rangesWc := none }
          { args := [x, y], ranges := none }
        = none) := by
  constructor
  · simp [matchProto, matchArgs, matchPat, hx, Bindings.empty,
      Bindings.bindVal, Bindings.lookupVal]
  · intro hxy
    by_cases hy : hd y = true
    · simp [matchProto, matchArgs, matchPat, hx, hy, Bindings.empty,
        Bindings.bindVal, Bindings.lookupVal, hxy]
    · simp [matchProto, matchArgs, matchPat, hx, hy, Bindings.empty,
        Bindings.bindVal, Bindings.lookupVal]

/-- Witness for C7: the repeated wildcard pattern matches the pair
(b, b) of equal super-operator-symbol stand-ins binding the name to b,
and fails on the distinct pair (b, c). -/
theorem repeated_wildcard_binding_consistency_witness :
    matchProto { argPats := [Pat.wc 4 (headOfDom Dom.oper), Pat.wc 4 (headOfDom Dom.oper)],
                 rangesWc := none }
        { args := [QE.sym Dom.oper 1 [], QE.sym Dom.oper 1 []], ranges := none }
      = some ⟨[(4, QE.sym Dom.oper 1 [])], none⟩ ∧
    matchProto { argPats := [Pat.wc 4 (headOfDom Dom.oper), Pat.wc 4 (headOfDom Dom.oper)],
                 rangesWc := none }
        { args := [QE.sym Dom.oper 1 [], QE.sym Dom.oper 2 []], ranges := none }
      = none := by
  have h := repeated_wildcard_binding_consistency 4 (headOfDom Dom.oper)
    (QE.sym Dom.oper 1 []) (QE.sym Dom.oper 2 []) rfl
  exact ⟨h.1, h.2 (by decide)⟩

/-! ## Super-operator algebra (src/qalgebra/core/super_operator_algebra.py)

The fragment embeds super-operator symbols on local Hilbert spaces, the
singletons ZeroSuperOperator and IdentitySuperOperator, SPre and SPost of
operator expressions, scalar multiples, sums and products.  Operator
expressions inside SPre/SPost are restricted to plain operator symbols
and flat products of symbols, the fragment reachable from symbols: none
of the OperatorTimes binary rules (src/qalgebra/_rules.py lines 222-377,
which all require scalar prefactors, zero, or local Fock/spin operators)
matches a pair of plain symbols. -/

/-- Operator fragment inside SPre/SPost: one operator symbol
(label, hilbert-space label) or a flat OperatorTimes product of symbols. -/
inductive OpA where
  | osym (s : Nat × Nat)
  | oprod (factors : List (Nat × Nat))
deriving DecidableEq

/-- Factors of an operator expression. -/
def OpA.factors : OpA → List (Nat × Nat)
  | .osym s => [s]
  | .oprod fs => fs

/-- Sorted insertion of a space label into a sorted list, without
duplicates. -/
def insertNat (n : Nat) : List Nat → List Nat
  | [] => [n]
  | m :: ms =>
      if n < m then n :: m :: ms
      else if n = m then m :: ms
      else m :: insertNat n ms

/-- Sorted union of space labels. -/
def unionSp (l1 l2 : List Nat) : List Nat := l1.foldr insertNat l2

/-- Sorted deduplicated list of space labels. -/
def sortedSpace (l : List Nat) : List Nat := l.foldr insertNat []

/-- Hilbert space of an operator expression: the union of its factors'
local spaces. -/
def OpA.space (a : OpA) : List Nat := sortedSpace (a.factors.map Prod.snd)

/-- Super-operator expressions. -/
inductive SOp where
  | sym (label : Nat) (hs : Nat)
  | zeroS
  | oneS
  | sPre (op : OpA)
  | sPost (op : OpA)
  | scalS (c : Int) (t : SOp)
  | plusS (args : List SOp)
  | timesS (args : List SOp)

mutual

/-- Structural equality test on super-operator expressions. -/
def SOp.beq : SOp → SOp → Bool
  | .sym l1 h1, .sym l2 h2 => l1 == l2 && h1 == h2
  | .zeroS, .zeroS => true
  | .oneS, .oneS => true
  | .sPre o1, .sPre o2 => o1 == o2
  | .sPost o1, .sPost o2 => o1 == o2
  | .scalS c1 t1, .scalS c2 t2 => c1 == c2 && SOp.beq t1 t2
  | .plusS a1, .plusS a2 => SOp.beqList a1 a2
  | .timesS a1, .timesS a2 => SOp.beqList a1 a2
  | _, _ => false

/-- Structural equality test on argument lists. -/
def SOp.beqList : List SOp → List SOp → Bool
  | [], [] => true
  | a :: as, b :: bs => SOp.beq a b && SOp.beqList as bs
  | _, _ => false

end

mutual

theorem SOp.beq_refl : ∀ a : SOp, SOp.beq a a = true
  | .sym l h => by simp [SOp.beq]
  | .zeroS => rfl
  | .oneS => rfl
  | .sPre o => by simp [SOp.beq]
  | .sPost o => by simp [SOp.beq]
  | .scalS c t => by simp [SOp.beq, SOp.beq_refl t]
  | .plusS args => by simp [SOp.beq, SOp.beqList_refl args]
  | .timesS args => by simp [SOp.beq, SOp.beqList_refl args]

theorem SOp.beqList_refl : ∀ l : List SOp, SOp.beqList l l = true
  | [] => rfl
  | a :: as => by simp [SOp.beqList, SOp.beq_refl a, SOp.beqList_refl as]

end

mutual

theorem SOp.eq_of_beq : ∀ a b : SOp, SOp.beq a b = true → a = b
  | .sym l h, b => by cases b <;> simp [SOp.beq]
  | .zeroS, b => by cases b <;> simp [SOp.beq]
  | .oneS, b => by cases b <;> simp [SOp.beq]
  | .sPre o, b => by cases b <;> simp [SOp.beq]
  | .sPost o, b => by cases b <;> simp [SOp.beq]
  | .scalS c t, b => by
      cases b <;> simp [SOp.beq]
      exact fun hc ht => ⟨hc, SOp.eq_of_beq t _ ht⟩
  | .plusS as, b => by
      cases b <;> simp [SOp.beq]
      exact fun h => SOp.eqList_of_beq as _ h
  | .timesS as, b => by
      cases b <;> simp [SOp.beq]
      exact fun h => SOp.eqList_of_beq as _ h

theorem SOp.eqList_of_beq : ∀ l1 l2 : List SOp, SOp.beqList l1 l2 = true → l1 = l2
  | [], [] => by simp
  | [], _ :: _ => by simp [SOp.beqList]
  | _ :: _, [] => by simp [SOp.beqList]
  | a :: as, b :: bs => by
      simp only [SOp.beqList, Bool.and_eq_true, List.cons.injEq]
      exact fun h => ⟨SOp.eq_of_beq a b h.1, SOp.eqList_of_beq as bs h.2⟩

end

instance : DecidableEq SOp := fun a b =>
  decidable_of_iff (SOp.beq a b = true)
    ⟨SOp.eq_of_beq a b, fun h => h ▸ SOp.beq_refl a⟩

mutual

/-- Hilbert space of a super-operator expression: singletons and the
SPre/SPost wrappers read their operand's space, composites unite their
children's spaces, and the zero and identity singletons live on the
trivial space. -/
def SOp.space : SOp → List Nat
  | .sym _ hs => [hs]
  | .zeroS => []
  | .oneS => []
  | .sPre op => op.space
  | .sPost op => op.space
  | .scalS _ t => SOp.space t
  | .plusS args => SOp.spaceList args
  | .timesS args => SOp.spaceList args

/-- Union of the spaces of a list of expressions. -/
def SOp.spaceList : List SOp → List Nat
  | [] => []
  | a :: as => unionSp (SOp.space a) (SOp.spaceList as)

end

def SOp.isSPre : SOp → Bool
  | .sPre _ => true
  | _ => false

def SOp.isSPost : SOp → Bool
  | .sPost _ => true
  | _ => false

def SOp.isTimes : SOp → Bool
  | .timesS _ => true
  | _ => false

def SOp.isPlus : SOp → Bool
  | .plusS _ => true
  | _ => false

/-- Disjointness of two space label lists. -/
def disjointSp (l1 l2 : List Nat) : Bool := l1.all (fun n => !(l2.contains n))

/-- Lexicographic comparison of space label lists (the space part of the
ordering key). -/
def lexLtNat : List Nat → List Nat → Bool
  | [], [] => false
  | [], _ :: _ => true
  | _ :: _, [] => false
  | a :: as, b :: bs =>
      if a < b then true else if b < a then false else lexLtNat as bs

/-- Modelled from the spec and the src tests (utils/ordering.py is not
part of the sources): DisjunctCommutativeHSOrder compares two factors by
their space keys when their spaces are disjoint (factors on disjoint
spaces commute and are brought into a canonical order, cf.
testOrdering/testCommutativity in tests/algebra/test_super_operator_algebra.py)
and leaves factors with overlapping spaces in insertion order. -/
def disjunctLt (a b : SOp) : Bool :=
  if disjointSp a.space b.space then lexLtNat a.space b.space else false

/-- SuperCommutativeHSOrder (src/qalgebra/core/super_operator_algebra.py
lines 164-174): acts like DisjunctCommutativeHSOrder, but any SPre sorts
before any SPost. -/
def superCommutativeHSOrderLt (a b : SOp) : Bool :=
  if a.isSPre && b.isSPost then true
  else if a.isSPost && b.isSPre then false
  else disjunctLt a b

/-- Keep-before relation of a stable sort driven by a strict key lt, as
Python's sorted does: a stays before b unless b < a. -/
def leOf (lt : SOp → SOp → Bool) (a b : SOp) : Bool := !(lt b a)

/-- Stable insertion into a sorted prefix: x goes after every element
that may stay before it. -/
def insertLe (le : α → α → Bool) (x : α) : List α → List α
  | [] => [x]
  | y :: ys => if le y x then y :: insertLe le x ys else x :: y :: ys

/-- Stable insertion sort, processing the input left to right. -/
def insSort (le : α → α → Bool) (l : List α) : List α :=
  l.foldl (fun acc x => insertLe le x acc) []

/-- Modelled from the spec: the orderby pipeline stage stable-sorts the
children of a commutative kind by the kind's order key. -/
def orderby (lt : SOp → SOp → Bool) (args : List SOp) : List SOp :=
  insSort (leOf lt) args

/-- Modelled from the spec: the assoc stage flattens nested
SuperOperatorTimes children. -/
def flattenTimes (args : List SOp) : List SOp :=
  args.flatMap fun a =>
    match a with
    | .timesS ch => ch
    | x => [x]

/-- Modelled from the spec: the assoc stage flattens nested
SuperOperatorPlus children. -/
def flattenPlus (args : List SOp) : List SOp :=
  args.flatMap fun a =>
    match a with
    | .plusS ch => ch
    | x => [x]

/-- Modelled from the spec: the filter_neutral stage drops children equal
to the kind's neutral element. -/
def filter_neutral (neutral : SOp) (args : List SOp) : List SOp :=
  args.filter (fun a => a != neutral)

/-- Scalar coefficient and remaining term of a summand. -/
def coeffAndTerm : SOp → Int × SOp
  | .scalS c t => (c, t)
  | a => (1, a)

/-- Add a coefficient to the entry of its term, keeping first-occurrence
order. -/
def addToCollected (c : Int) (t : SOp) :
    List (Int × SOp) → List (Int × SOp)
  | [] => [(c, t)]
  | (c2, t2) :: rest =>
      if t = t2 then (c2 + c, t2) :: rest
      else (c2, t2) :: addToCollected c t rest

/-- Rebuild a collected summand: a zero coefficient drops the term, a
unit coefficient leaves the bare term. -/
def rebuildSummand : Int × SOp → Option SOp
  | (c, t) => if c = 0 then none else if c = 1 then some t else some (SOp.scalS c t)

/-- Modelled from the spec: the collect_summands stage merges children
that are the same term up to a scalar coefficient by summing the
coefficients in first-occurrence order; additive identities and terms
whose collected coefficient is zero are dropped. -/
def collect_summands (args : List SOp) : List SOp :=
  (args.foldl
      (fun acc a =>
        if a = SOp.zeroS then acc
        else addToCollected (coeffAndTerm a).1 (coeffAndTerm a).2 acc)
      []).filterMap rebuildSummand

/-- Try every binary rule in registration order on the adjacent pair
(a, b). -/
def tryRulesBin (rules : List (SOp → SOp → Option SOp)) (a b : SOp) :
    Option SOp :=
  match rules with
  | [] => none
  | r :: rest =>
      match r a b with
      | some v => some v
      | none => tryRulesBin rest a b

/-- Leftmost adjacent pair matched by some binary rule, with the
handler's replacement. -/
def findPair (rules : List (SOp → SOp → Option SOp)) :
    List SOp → Option (Nat × SOp)
  | a :: b :: rest =>
      match tryRulesBin rules a b with
      | some r => some (0, r)
      | none =>
          match findPair rules (b :: rest) with
          | some (i, r) => some (i + 1, r)
          | none => none
  | _ => none

/-- Replace the adjacent pair at position i by the replacement node. -/
def splicePair (args : List SOp) (i : Nat) (r : SOp) : List SOp :=
  args.take i ++ r :: args.drop (i + 2)

/-- One bounded pass of the binary-rule scan: each step replaces one
adjacent pair (shortening the list by one) and restarts from the
beginning; fuel counts the remaining steps. -/
def mrbFuel (fuel : Nat) (rules : List (SOp → SOp → Option SOp))
    (args : List SOp) : List SOp :=
  match fuel with
  | 0 => args
  | f + 1 =>
      match findPair rules args with
      | none => args
      | some (i, r) => mrbFuel f rules (splicePair args i r)

/-- Modelled from the spec: match_replace_binary scans adjacent pairs
left to right, tries every binary rule in registration order on each
pair, and on the first match replaces the pair with the handler's result
at position i and restarts the scan; it returns when no adjacent pair
matches.  Each replacement shortens the argument list by one, so a fuel
of the list length always reaches the fixed point. -/
def match_replace_binary (rules : List (SOp → SOp → Option SOp))
    (args : List SOp) : List SOp :=
  mrbFuel args.length rules args

/-- Wrap canonical children back into an operation node: no child left
gives the neutral element, a single child is returned unwrapped. -/
def wrapWith (mk : List SOp → SOp) (neutral : SOp) : List SOp → SOp
  | [] => neutral
  | [a] => a
  | args => mk args

/-- SuperOperatorPlus.create (src lines 156-161): the pipeline
simplifications = [assoc, orderby, collect_summands,
match_replace_binary] with neutral element ZeroSuperOperator, over the
kind's order key and registered binary rules. -/
def soPlusCreate (lt : SOp → SOp → Bool)
    (rules : List (SOp → SOp → Option SOp)) (args : List SOp) : SOp :=
  wrapWith SOp.plusS SOp.zeroS
    (match_replace_binary rules (collect_summands (orderby lt (flattenPlus args))))

/-- SuperOperatorTimes.create (src lines 177-191): the overridden create
collapses to ZeroSuperOperator as soon as any raw operand is the zero
singleton, before the pipeline proper; otherwise the pipeline
simplifications = [assoc, orderby, filter_neutral, match_replace_binary]
runs with neutral element IdentitySuperOperator. -/
def soTimesCreate (lt : SOp → SOp → Bool)
    (rules : List (SOp → SOp → Option SOp)) (args : List SOp) : SOp :=
  if args.contains SOp.zeroS then SOp.zeroS
  else
    wrapWith SOp.timesS SOp.oneS
      (match_replace_binary rules
        (filter_neutral SOp.oneS (orderby lt (flattenTimes args))))

/-- ScalarTimesSuperOperator.create with its rule table
(src/qalgebra/_rules.py lines 705-723): R001 rewrites 1 * sA to sA, R002
rewrites 0 * sA to ZeroSuperOperator, R003 rewrites u * ZeroSuperOperator
to ZeroSuperOperator, and R004 merges u * (v * sA) into (u v) * sA,
re-entering create. -/
def mkScalarTimesSO : Int → SOp → SOp
  | c, SOp.scalS v sA =>
      if c = 1 then SOp.scalS v sA
      else if c = 0 then SOp.zeroS
      else mkScalarTimesSO (c * v) sA
  | c, t =>
      if c = 1 then t
      else if c = 0 then SOp.zeroS
      else if t = SOp.zeroS then SOp.zeroS
      else SOp.scalS c t

/-- Ordering key of plain operator symbols under
DisjunctCommutativeHSOrder: symbols on distinct (hence disjoint) local
spaces compare by space label, symbols on the same space are left in
insertion order. -/
def opSymLt (a b : Nat × Nat) : Bool :=
  if a.2 = b.2 then false else decide (a.2 < b.2)

/-- OperatorTimes.create restricted to the symbol fragment: assoc
flattening and DisjunctCommutativeHSOrder ordering apply, no binary rule
of OperatorTimes matches a pair of plain symbols, and a single remaining
factor is unwrapped. -/
def opTimesCreate (a b : OpA) : OpA :=
  match insSort (fun x y => !(opSymLt y x)) (a.factors ++ b.factors) with
  | [s] => OpA.osym s
  | fs => OpA.oprod fs

/-- SPre.create on the symbol fragment: the SPre rule table
(src/qalgebra/_rules.py lines 757-777) rewrites scalar multiples, the
identity operator and the zero operator, none of which occurs in the
symbol/product fragment, so the node is built as is. -/
def sPreCreate (op : OpA) : SOp := SOp.sPre op

/-- SPost.create on the symbol fragment (src lines 779-799), analogous
to sPreCreate. -/
def sPostCreate (op : OpA) : SOp := SOp.sPost op

/-- SuperOperatorTimes._binary_rules (src/qalgebra/_rules.py lines
725-755): R001 pulls a scalar factor out of the left operand, R002 out
of the right operand — both re-enter SuperOperatorTimes.create on the
pair stripped of the coefficient, via timesPair —, R003 merges
SPre(A) * SPre(B) into SPre(A B), and R004 merges SPost(A) * SPost(B)
into SPost(B A). -/
def soBinRules (timesPair : SOp → SOp → SOp) :
    List (SOp → SOp → Option SOp) :=
  [ fun a b =>
      match a with
      | SOp.scalS u sA => some (mkScalarTimesSO u (timesPair sA b))
      | _ => none,
    fun a b =>
      match b with
      | SOp.scalS u sB => some (mkScalarTimesSO u (timesPair a sB))
      | _ => none,
    fun a b =>
      match a, b with
      | SOp.sPre opA, SOp.sPre opB => some (sPreCreate (opTimesCreate opA opB))
      | _, _ => none,
    fun a b =>
      match a, b with
      | SOp.sPost opA, SOp.sPost opB => some (sPostCreate (opTimesCreate opB opA))
      | _, _ => none ]

/-- SuperOperatorTimes.create with the registered order key and binary
rules; the fuel bounds the handlers' re-entry into create, and a fuel-out
re-entry returns the bare pair product. -/
def soTimesCreateFull : Nat → List SOp → SOp
  | 0, args =>
      soTimesCreate superCommutativeHSOrderLt
        (soBinRules (fun a b => SOp.timesS [a, b])) args
  | fuel + 1, args =>
      soTimesCreate superCommutativeHSOrderLt
        (soBinRules (fun a b => soTimesCreateFull fuel [a, b])) args

/-! ### Supporting lemmas about the stable insertion sort. -/

theorem insertLe_perm (le : α → α → Bool) (x : α) :
    ∀ l : List α, List.Perm (insertLe le x l) (x :: l)
  | [] => List.Perm.refl _
  | y :: ys => by
      simp only [insertLe]
      by_cases h : le y x = true
      · simp only [h, if_true]
        exact ((insertLe_perm le x ys).cons y).trans (List.Perm.swap x y ys)
      · rw [Bool.not_eq_true] at h
        simp only [h, Bool.false_eq_true, if_false]
        exact List.Perm.refl _

theorem insertLe_mem {le : α → α → Bool} {x z : α} {l : List α} :
    z ∈ insertLe le x l ↔ z = x ∨ z ∈ l := by
  rw [(insertLe_perm le x l).mem_iff]
  simp

theorem insSort_aux_perm (le : α → α → Bool) :
    ∀ (l acc : List α),
      List.Perm (l.foldl (fun acc x => insertLe le x acc) acc) (acc ++ l)
  | [], acc => by simp
  | x :: xs, acc => by
      simp only [List.foldl_cons]
      refine (insSort_aux_perm le xs (insertLe le x acc)).trans ?_
      refine (((insertLe_perm le x acc).append_right xs).trans ?_)
      exact List.perm_middle.symm

theorem insSort_perm (le : α → α → Bool) (l : List α) :
    List.Perm (insSort le l) l := by
  simpa using insSort_aux_perm le l []

theorem insSort_mem {le : α → α → Bool} {l : List α} {z : α} :
    z ∈ insSort le l ↔ z ∈ l := (insSort_perm le l).mem_iff

theorem insertLe_pairwise (le : α → α → Bool) (P : α → Prop)
    (htrans : ∀ a b c, P a → P b → P c →
      le a b = true → le b c = true → le a c = true)
    (htot : ∀ a b, P a → P b → le a b = true ∨ le b a = true)
    (x : α) (hx : P x) :
    ∀ acc : List α, (∀ y ∈ acc, P y) →
      List.Pairwise (fun a b => le a b = true) acc →
      List.Pairwise (fun a b => le a b = true) (insertLe le x acc)
  | [], _, _ => by simp [insertLe]
  | y :: ys, hmem, hpw => by
      have hy : P y := hmem y (by simp)
      have hys : ∀ z ∈ ys, P z := fun z hz => hmem z (by simp [hz])
      rw [List.pairwise_cons] at hpw
      simp only [insertLe]
      by_cases h : le y x = true
      · simp only [h, if_true]
        rw [List.pairwise_cons]
        constructor
        · intro z hz
          rcases insertLe_mem.mp hz with hz | hz
          · exact hz ▸ h
          · exact hpw.1 z hz
        · exact insertLe_pairwise le P htrans htot x hx ys hys hpw.2
      · rw [Bool.not_eq_true] at h
        simp only [h, Bool.false_eq_true, if_false]
        have hxy : le x y = true := by
          rcases htot y x hy hx with h2 | h2
          · rw [h] at h2
            exact absurd h2 (by simp)
          · exact h2
        rw [List.pairwise_cons]
        constructor
        · intro z hz
          rcases List.mem_cons.mp hz with hz | hz
          · exact hz ▸ hxy
          · exact htrans x y z hx hy (hys z hz) hxy (hpw.1 z hz)
        · rw [List.pairwise_cons]
          exact ⟨hpw.1, hpw.2⟩

theorem insSort_aux_pairwise (le : α → α → Bool) (P : α → Prop)
    (htrans : ∀ a b c, P a → P b → P c →
      le a b = true → le b c = true → le a c = true)
    (htot : ∀ a b, P a → P b → le a b = true ∨ le b a = true) :
    ∀ (l acc : List α), (∀ y ∈ l, P y) → (∀ y ∈ acc, P y) →
      List.Pairwise (fun a b => le a b = true) acc →
      List.Pairwise (fun a b => le a b = true)
        (l.foldl (fun acc x => insertLe le x acc) acc)
  | [], acc, _, _, hpw => hpw
  | x :: xs, acc, hl, hacc, hpw => by
      simp only [List.foldl_cons]
      refine insSort_aux_pairwise le P htrans htot xs (insertLe le x acc)
        (fun y hy => hl y (by simp [hy])) ?_ ?_
      · intro y hy
        rcases insertLe_mem.mp hy with hy | hy
        · exact hy ▸ hl x (by simp)
        · exact hacc y hy
      · exact insertLe_pairwise le P htrans htot x (hl x (by simp)) acc hacc hpw

theorem insSort_pairwise (le : α → α → Bool) (P : α → Prop)
    (htrans : ∀ a b c, P a → P b → P c →
      le a b = true → le b c = true → le a c = true)
    (htot : ∀ a b, P a → P b → le a b = true ∨ le b a = true)
    (l : List α) (hl : ∀ y ∈ l, P y) :
    List.Pairwise (fun a b => le a b = true) (insSort le l) :=
  insSort_aux_pairwise le P htrans htot l [] hl (by simp) (by simp)

theorem insertLe_append_all (le : α → α → Bool) (x : α) :
    ∀ acc : List α, (∀ y ∈ acc, le y x = true) →
      insertLe le x acc = acc ++ [x]
  | [], _ => rfl
  | y :: ys, h => by
      simp only [insertLe, h y (by simp), if_true, List.cons_append,
        List.cons.injEq, true_and]
      exact insertLe_append_all le x ys (fun z hz => h z (by simp [hz]))

theorem insSort_aux_of_pairwise (le : α → α → Bool) :
    ∀ (l acc : List α),
      List.Pairwise (fun a b => le a b = true) l →
      (∀ y ∈ acc, ∀ x ∈ l, le y x = true) →
      l.foldl (fun acc x => insertLe le x acc) acc = acc ++ l
  | [], acc, _, _ => by simp
  | x :: xs, acc, hpw, hcross => by
      rw [List.pairwise_cons] at hpw
      simp only [List.foldl_cons]
      rw [insertLe_append_all le x acc (fun y hy => hcross y hy x (by simp))]
      rw [insSort_aux_of_pairwise le xs (acc ++ [x]) hpw.2 ?_]
      · simp
      · intro y hy z hz
        rcases List.mem_append.mp hy with hy | hy
        · exact hcross y hy z (by simp [hz])
        · simp only [List.mem_singleton] at hy
          exact hy ▸ hpw.1 z hz

/-- A list that is already pairwise ordered is left unchanged by the
stable insertion sort. -/
theorem insSort_of_pairwise (le : α → α → Bool) (l : List α)
    (hpw : List.Pairwise (fun a b => le a b = true) l) :
    insSort le l = l := by
  simpa using insSort_aux_of_pairwise le l [] hpw (by simp)

theorem pairwise_perm_eq (le : α → α → Bool) (P : α → Prop)
    (hanti : ∀ a b, P a → P b → le a b = true → le b a = true → a = b) :
    ∀ l1 l2 : List α, List.Perm l1 l2 → (∀ y ∈ l1, P y) →
      List.Pairwise (fun a b => le a b = true) l1 →
      List.Pairwise (fun a b => le a b = true) l2 → l1 = l2
  | [], l2, h, _, _, _ => h.nil_eq
  | a :: t1, [], h, _, _, _ => by
      have := h.length_eq
      simp at this
  | a :: t1, b :: t2, h, hP, hpw1, hpw2 => by
      rw [List.pairwise_cons] at hpw1 hpw2
      by_cases hab : a = b
      · subst hab
        have htails := h.cons_inv
        have heq := pairwise_perm_eq le P hanti t1 t2 htails
          (fun y hy => hP y (by simp [hy])) hpw1.2 hpw2.2
        rw [heq]
      · have hbmem : b ∈ t1 := by
          have : b ∈ a :: t1 := h.mem_iff.mpr (by simp)
          rcases List.mem_cons.mp this with hc | hc
          · exact absurd hc.symm hab
          · exact hc
        have hamem : a ∈ t2 := by
          have : a ∈ b :: t2 := h.mem_iff.mp (by simp)
          rcases List.mem_cons.mp this with hc | hc
          · exact absurd hc hab
          · exact hc
        have h1 : le a b = true := hpw1.1 b hbmem
        have h2 : le b a = true := hpw2.1 a hamem
        exact absurd (hanti a b (hP a (by simp))
          (hP b (by simp [hbmem])) h1 h2) hab

/-! ### Supporting lemmas about the binary-rule scan. -/

theorem findPair_bound (rules : List (SOp → SOp → Option SOp)) :
    ∀ (l : List SOp) (i : Nat) (r : SOp),
      findPair rules l = some (i, r) → i + 2 ≤ l.length
  | [], i, r => by simp [findPair]
  | [a], i, r => by simp [findPair]
  | a :: b :: rest, i, r => by
      simp only [findPair]
      cases htr : tryRulesBin rules a b with
      | some v =>
          intro h
          injection h with h2
          injection h2 with h3 h4
          subst h3
          simp
      | none =>
          cases hfp : findPair rules (b :: rest) with
          | none => simp
          | some p =>
              obtain ⟨i2, r2⟩ := p
              intro h
              injection h with h2
              injection h2 with e1 e2
              have hb := findPair_bound rules (b :: rest) i2 r2 hfp
              simp only [List.length_cons] at *
              omega

theorem findPair_split (rules : List (SOp → SOp → Option SOp)) :
    ∀ (l : List SOp) (i : Nat) (r : SOp),
      findPair rules l = some (i, r) →
      ∃ xs a b ys, l = xs ++ a :: b :: ys ∧ xs.length = i ∧
        tryRulesBin rules a b = some r
  | [], i, r => by simp [findPair]
  | [a], i, r => by simp [findPair]
  | a :: b :: rest, i, r => by
      simp only [findPair]
      cases htr : tryRulesBin rules a b with
      | some v =>
          intro h
          injection h with h2
          injection h2 with h3 h4
          exact ⟨[], a, b, rest, by simp, by simp [h3.symm], by rw [htr, h4]⟩
      | none =>
          cases hfp : findPair rules (b :: rest) with
          | none => simp
          | some p =>
              obtain ⟨i2, r2⟩ := p
              intro h
              injection h with h2
              injection h2 with e1 e2
              subst e1
              subst e2
              obtain ⟨xs, a2, b2, ys, hl, hlen, htr2⟩ :=
                findPair_split rules (b :: rest) i2 r2 hfp
              refine ⟨a :: xs, a2, b2, ys, by simp [hl], ?_, htr2⟩
              simp only [List.length_cons, hlen]

theorem findPair_leftmost (rules : List (SOp → SOp → Option SOp)) :
    ∀ (l : List SOp) (i : Nat) (r : SOp),
      findPair rules l = some (i, r) →
      ∀ j, j < i → ∀ a2 b2 rest2, l.drop j = a2 :: b2 :: rest2 →
        tryRulesBin rules a2 b2 = none
  | [], i, r => by simp [findPair]
  | [a], i, r => by simp [findPair]
  | a :: b :: rest, i, r => by
      simp only [findPair]
      cases htr : tryRulesBin rules a b with
      | some v =>
          intro h
          injection h with h2
          injection h2 with h3 h4
          subst h3
          intro j hj
          omega
      | none =>
          cases hfp : findPair rules (b :: rest) with
          | none => simp
          | some p =>
              obtain ⟨i2, r2⟩ := p
              intro h
              injection h with h2
              injection h2 with e1 e2
              intro j hj a2 b2 rest2 hdrop
              cases j with
              | zero =>
                  simp only [List.drop_zero] at hdrop
                  injection hdrop with e3 e4
                  injection e4 with e5 e6
                  rw [← e3, ← e5]
                  exact htr
              | succ j2 =>
                  have hstep : (b :: rest).drop j2 = a2 :: b2 :: rest2 := by
                    simpa using hdrop
                  refine findPair_leftmost rules (b :: rest) i2 r2
                    hfp j2 ?_ a2 b2 rest2 hstep
                  omega

theorem splicePair_eq (xs ys : List SOp) (a b r : SOp) :
    splicePair (xs ++ a :: b :: ys) xs.length r = xs ++ r :: ys := by
  unfold splicePair
  have h1 : (xs ++ a :: b :: ys).take xs.length = xs := List.take_left xs _
  have h2 : (xs ++ a :: b :: ys).drop (xs.length + 2) = ys := by
    have : xs ++ a :: b :: ys = (xs ++ [a, b]) ++ ys := by simp
    rw [this]
    have hlen : (xs ++ [a, b]).length = xs.length + 2 := by simp
    rw [← hlen]
    exact List.drop_left _ _
  rw [h1, h2]

theorem splicePair_length (l : List SOp) (i : Nat) (r : SOp)
    (h : i + 2 ≤ l.length) : (splicePair l i r).length = l.length - 1 := by
  unfold splicePair
  simp only [List.length_append, List.length_take, List.length_cons,
    List.length_drop]
  omega

theorem mrbFuel_nil (fuel : Nat) (rules : List (SOp → SOp → Option SOp)) :
    mrbFuel fuel rules [] = [] := by
  cases fuel with
  | zero => rfl
  | succ f => simp [mrbFuel, findPair]

theorem mrbFuel_fixpoint (rules : List (SOp → SOp → Option SOp)) :
    ∀ (fuel : Nat) (l : List SOp), l.length ≤ fuel →
      findPair rules (mrbFuel fuel rules l) = none := by
  intro fuel
  induction fuel with
  | zero =>
      intro l hl
      have : l = [] := List.length_eq_zero.mp (Nat.le_zero.mp hl)
      subst this
      simp [mrbFuel, findPair]
  | succ f ih =>
      intro l hl
      simp only [mrbFuel]
      cases hfp : findPair rules l with
      | none => exact hfp
      | some p =>
          obtain ⟨i, r⟩ := p
          have hb := findPair_bound rules l i r hfp
          apply ih
          rw [splicePair_length l i r hb]
          omega

theorem mrbFuel_congr (rules : List (SOp → SOp → Option SOp)) :
    ∀ (f1 f2 : Nat) (l : List SOp), l.length ≤ f1 → l.length ≤ f2 →
      mrbFuel f1 rules l = mrbFuel f2 rules l := by
  intro f1
  induction f1 with
  | zero =>
      intro f2 l h1 h2
      have : l = [] := List.length_eq_zero.mp (Nat.le_zero.mp h1)
      subst this
      rw [mrbFuel_nil, mrbFuel_nil]
  | succ f ih =>
      intro f2 l h1 h2
      cases f2 with
      | zero =>
          have : l = [] := List.length_eq_zero.mp (Nat.le_zero.mp h2)
          subst this
          rw [mrbFuel_nil, mrbFuel_nil]
      | succ g =>
          simp only [mrbFuel]
          cases hfp : findPair rules l with
          | none => rfl
          | some p =>
              obtain ⟨i, r⟩ := p
              have hb := findPair_bound rules l i r hfp
              have hl2 := splicePair_length l i r hb
              apply ih
              · omega
              · omega

theorem match_replace_binary_nomatch (rules : List (SOp → SOp → Option SOp))
    (args : List SOp) (h : findPair rules args = none) :
    match_replace_binary rules args = args := by
  unfold match_replace_binary
  cases hl : args.length with
  | zero => rfl
  | succ n => simp [mrbFuel, h]

theorem match_replace_binary_step (rules : List (SOp → SOp → Option SOp))
    (args : List SOp) (i : Nat) (r : SOp)
    (h : findPair rules args = some (i, r)) :
    match_replace_binary rules args =
      match_replace_binary rules (splicePair args i r) := by
  unfold match_replace_binary
  have hb := findPair_bound rules args i r h
  have hlen := splicePair_length args i r hb
  cases hl : args.length with
  | zero =>
      exfalso
      omega
  | succ n =>
      rw [hl] at hlen
      simp only [mrbFuel, h]
      rw [hlen]
      exact mrbFuel_congr rules n (n + 1 - 1) (splicePair args i r)
        (by rw [hlen]; omega) (by rw [hlen])

theorem mrbFuel_length_le (rules : List (SOp → SOp → Option SOp)) :
    ∀ (fuel : Nat) (l : List SOp),
      (mrbFuel fuel rules l).length ≤ l.length := by
  intro fuel
  induction fuel with
  | zero => intro l; simp [mrbFuel]
  | succ f ih =>
      intro l
      simp only [mrbFuel]
      cases hfp : findPair rules l with
      | none => simp
      | some p =>
          obtain ⟨i, r⟩ := p
          simp only [hfp]
          have hb := findPair_bound rules l i r hfp
          have hrec := ih (splicePair l i r)
          rw [splicePair_length l i r hb] at hrec
          omega

theorem match_replace_binary_fixpoint (rules : List (SOp → SOp → Option SOp))
    (args : List SOp) :
    findPair rules (match_replace_binary rules args) = none :=
  mrbFuel_fixpoint rules args.length args (Nat.le_refl _)

/-- C8: binary-rule scan semantics.  The scan (i) returns the argument
sequence unchanged exactly when no adjacent pair matches any rule,
(ii) when the leftmost match at position i produces replacement r, the
scan equals the scan restarted from the beginning on the sequence with
the pair spliced out in favor of r at position i, (iii) the final result
contains no adjacent pair matching any rule, (iv) a successful findPair
is the leftmost matching adjacent pair, every earlier adjacent pair
matching no rule, and (v) the rules are consulted in registration order
on each pair: an earlier rule that fires shadows the rest, a rule that
does not fire defers to the rest. -/
theorem match_replace_binary_scan_semantics :
    (∀ (rules : List (SOp → SOp → Option SOp)) (args : List SOp),
      match_replace_binary rules args = args ↔ findPair rules args = none) ∧
    (∀ (rules : List (SOp → SOp → Option SOp)) (args : List SOp) (i : Nat) (r : SOp),
      findPair rules args = some (i, r) →
      match_replace_binary rules args =
        match_replace_binary rules (splicePair args i r)) ∧
    (∀ (rules : List (SOp → SOp → Option SOp)) (args : List SOp),
      findPair rules (match_replace_binary rules args) = none) ∧
    (∀ (rules : List (SOp → SOp → Option SOp)) (args : List SOp) (i : Nat) (r : SOp),
      findPair rules args = some (i, r) →
      (∃ a b rest, args.drop i = a :: b :: rest ∧
        tryRulesBin rules a b = some r) ∧
      (∀ j, j < i → ∀ a2 b2 rest2, args.drop j = a2 :: b2 :: rest2 →
        tryRulesBin rules a2 b2 = none)) ∧
    (∀ (rule : SOp → SOp → Option SOp) (rest : List (SOp → SOp → Option SOp))
        (a b : SOp) (v : SOp), rule a b = some v →
      tryRulesBin (rule :: rest) a b = some v) ∧
    (∀ (rule : SOp → SOp → Option SOp) (rest : List (SOp → SOp → Option SOp))
        (a b : SOp), rule a b = none →
      tryRulesBin (rule :: rest) a b = tryRulesBin rest a b) := by
  refine ⟨?_, match_replace_binary_step, match_replace_binary_fixpoint, ?_, ?_, ?_⟩
  · intro rules args
    constructor
    · intro heq
      cases hfp : findPair rules args with
      | none => rfl
      | some p =>
          exfalso
          obtain ⟨i, r⟩ := p
          have hb := findPair_bound rules args i r hfp
          have hstep := match_replace_binary_step rules args i r hfp
          have hle : (match_replace_binary rules (splicePair args i r)).length ≤
              (splicePair args i r).length := mrbFuel_length_le rules _ _
          rw [splicePair_length args i r hb] at hle
          rw [← hstep, heq] at hle
          omega
    · exact match_replace_binary_nomatch rules args
  · intro rules args i r h
    obtain ⟨xs, a, b, ys, hl, hlen, htr⟩ := findPair_split rules args i r h
    constructor
    · refine ⟨a, b, ys, ?_, htr⟩
      rw [hl, ← hlen]
      exact List.drop_left xs _
    · exact findPair_leftmost rules args i r h
  · intro rule rest a b v h
    simp [tryRulesBin, h]
  · intro rule rest a b h
    simp [tryRulesBin, h]

/-- Witness for C8: with a single rule merging two adjacent identity
factors, the scan on [1, 1, a] replaces the leftmost pair and restarts,
terminating at [1, a] where no adjacent pair matches. -/
theorem match_replace_binary_scan_semantics_witness :
    match_replace_binary
        [fun a b => if a == SOp.oneS && b == SOp.oneS then some SOp.oneS else none]
        [SOp.oneS, SOp.oneS, SOp.sym 0 0]
      = [SOp.oneS, SOp.sym 0 0] ∧
    findPair
        [fun a b => if a == SOp.oneS && b == SOp.oneS then some SOp.oneS else none]
        [SOp.oneS, SOp.sym 0 0] = none := by
  have hstep := match_replace_binary_scan_semantics.2.1
    [fun a b => if a == SOp.oneS && b == SOp.oneS then some SOp.oneS else none]
    [SOp.oneS, SOp.oneS, SOp.sym 0 0] 0 SOp.oneS (by decide)
  have hnone : findPair
      [fun a b => if a == SOp.oneS && b == SOp.oneS then some SOp.oneS else none]
      [SOp.oneS, SOp.sym 0 0] = none := by decide
  have hdone := (match_replace_binary_scan_semantics.1
    [fun a b => if a == SOp.oneS && b == SOp.oneS then some SOp.oneS else none]
    [SOp.oneS, SOp.sym 0 0]).mpr hnone
  refine ⟨?_, hnone⟩
  rw [hstep]
  exact hdone

/-! ### Supporting lemmas about the SPre/SPost ordering override. -/

theorem superCommLt_pre_post (A B : OpA) :
    superCommutativeHSOrderLt (SOp.sPre A) (SOp.sPost B) = true := by
  simp [superCommutativeHSOrderLt, SOp.isSPre, SOp.isSPost]

theorem superCommLt_post_pre (A B : OpA) :
    superCommutativeHSOrderLt (SOp.sPost A) (SOp.sPre B) = false := by
  simp [superCommutativeHSOrderLt, SOp.isSPre, SOp.isSPost]

theorem exists_of_isSPre {x : SOp} (h : x.isSPre = true) :
    ∃ op, x = SOp.sPre op := by
  cases x <;> simp_all [SOp.isSPre]

theorem exists_of_isSPost {x : SOp} (h : x.isSPost = true) :
    ∃ op, x = SOp.sPost op := by
  cases x <;> simp_all [SOp.isSPost]

theorem insertLe_stop (le : α → α → Bool) (x : α) :
    ∀ (P Q : List α), (∀ q ∈ Q, le q x = false) →
      insertLe le x (P ++ Q) = insertLe le x P ++ Q
  | [], [], _ => by simp
  | [], q :: qs, h => by
      have hq := h q (by simp)
      simp [insertLe, hq]
  | p :: ps, Q, h => by
      simp only [List.cons_append, insertLe]
      by_cases hle : le p x = true
      · simp only [hle, if_true, List.cons_append, List.cons.injEq, true_and]
        exact insertLe_stop le x ps Q h
      · rw [Bool.not_eq_true] at hle
        simp [hle]

theorem insertLe_pass (le : α → α → Bool) (x : α) :
    ∀ (P Q : List α), (∀ p ∈ P, le p x = true) →
      insertLe le x (P ++ Q) = P ++ insertLe le x Q
  | [], Q, _ => by simp
  | p :: ps, Q, h => by
      have hp := h p (by simp)
      simp only [List.cons_append, insertLe, hp, if_true, List.cons.injEq,
        true_and]
      exact insertLe_pass le x ps Q (fun z hz => h z (by simp [hz]))

theorem sort_prepost_aux :
    ∀ (args acc P Q : List SOp), acc = P ++ Q →
      (∀ y ∈ P, y.isSPre = true) → (∀ y ∈ Q, y.isSPost = true) →
      (∀ y ∈ args, y.isSPre = true ∨ y.isSPost = true) →
      ∃ P2 Q2,
        args.foldl (fun acc x => insertLe (leOf superCommutativeHSOrderLt) x acc) acc
          = P2 ++ Q2 ∧
        (∀ y ∈ P2, y.isSPre = true) ∧ (∀ y ∈ Q2, y.isSPost = true)
  | [], acc, P, Q, hacc, hP, hQ, _ => ⟨P, Q, by simp [hacc], hP, hQ⟩
  | x :: xs, acc, P, Q, hacc, hP, hQ, hargs => by
      simp only [List.foldl_cons]
      rcases hargs x (by simp) with hx | hx
      · obtain ⟨opx, hopx⟩ := exists_of_isSPre hx
        have hstop : insertLe (leOf superCommutativeHSOrderLt) x (P ++ Q) =
            insertLe (leOf superCommutativeHSOrderLt) x P ++ Q := by
          refine insertLe_stop _ x P Q ?_
          intro q hq
          obtain ⟨opq, hopq⟩ := exists_of_isSPost (hQ q hq)
          rw [hopq, hopx]
          simp [leOf, superCommLt_pre_post]
        refine sort_prepost_aux xs (insertLe (leOf superCommutativeHSOrderLt) x acc)
          (insertLe (leOf superCommutativeHSOrderLt) x P) Q
          ?_ ?_ hQ (fun y hy => hargs y (by simp [hy]))
        · rw [hacc, hstop]
        · intro y hy
          rcases insertLe_mem.mp hy with hy | hy
          · exact hy ▸ hx
          · exact hP y hy
      · obtain ⟨opx, hopx⟩ := exists_of_isSPost hx
        have hpass : insertLe (leOf superCommutativeHSOrderLt) x (P ++ Q) =
            P ++ insertLe (leOf superCommutativeHSOrderLt) x Q := by
          refine insertLe_pass _ x P Q ?_
          intro p hp
          obtain ⟨opp, hopp⟩ := exists_of_isSPre (hP p hp)
          rw [hopp, hopx]
          simp [leOf, superCommLt_post_pre]
        refine sort_prepost_aux xs (insertLe (leOf superCommutativeHSOrderLt) x acc)
          P (insertLe (leOf superCommutativeHSOrderLt) x Q)
          ?_ hP ?_ (fun y hy => hargs y (by simp [hy]))
        · rw [hacc, hpass]
        · intro y hy
          rcases insertLe_mem.mp hy with hy | hy
          · exact hy ▸ hx
          · exact hQ y hy

/-- C9: domain-specific ordering override for super-operators.  The
SuperCommutativeHSOrder key makes any SPre factor strictly precede any
SPost factor — for every pair of operands of the two kinds, on the same,
overlapping, or disjoint spaces (first conjunct, where the universally
quantified operands include equal-space ones).  Consequently the orderby
stage sorts any product consisting of SPre and SPost factors into all
SPre factors followed by all SPost factors (second conjunct), and the
full SuperOperatorTimes.create reproduces the src test
dpost * epre == SPre(e) * SPost(d) for two factors on the SAME local
space, i.e. in one ordering island (third conjunct). -/
theorem sPre_sorts_before_sPost :
    (∀ A B : OpA, superCommutativeHSOrderLt (SOp.sPre A) (SOp.sPost B) = true ∧
      superCommutativeHSOrderLt (SOp.sPost B) (SOp.sPre A) = false) ∧
    (∀ args : List SOp, (∀ y ∈ args, y.isSPre = true ∨ y.isSPost = true) →
      ∃ P Q, orderby superCommutativeHSOrderLt args = P ++ Q ∧
        (∀ y ∈ P, y.isSPre = true) ∧ (∀ y ∈ Q, y.isSPost = true)) ∧
    soTimesCreateFull 1 [SOp.sPost (OpA.osym (3, 1)), SOp.sPre (OpA.osym (4, 1))]
      = SOp.timesS [SOp.sPre (OpA.osym (4, 1)), SOp.sPost (OpA.osym (3, 1))] := by
  refine ⟨fun A B => ⟨superCommLt_pre_post A B, superCommLt_post_pre B A⟩, ?_, by decide⟩
  intro args hargs
  exact sort_prepost_aux args [] [] [] rfl (by simp) (by simp) hargs

/-- Witness for C9: the ordering key and the sorted split evaluated on a
concrete SPost * SPre product whose two factors share one local space. -/
theorem sPre_sorts_before_sPost_witness :
    superCommutativeHSOrderLt (SOp.sPre (OpA.osym (0, 1))) (SOp.sPost (OpA.osym (1, 1)))
      = true ∧
    (∃ P Q,
      orderby superCommutativeHSOrderLt
          [SOp.sPost (OpA.osym (1, 1)), SOp.sPre (OpA.osym (0, 1))] = P ++ Q ∧
      (∀ y ∈ P, y.isSPre = true) ∧ (∀ y ∈ Q, y.isSPost = true)) := by
  refine ⟨(sPre_sorts_before_sPost.1 (OpA.osym (0, 1)) (OpA.osym (1, 1))).1, ?_⟩
  exact sPre_sorts_before_sPost.2.1
    [SOp.sPost (OpA.osym (1, 1)), SOp.sPre (OpA.osym (0, 1))] (by decide)

/-- C6, counterexample: commutative reordering is NOT stable under
permutation for SuperOperatorTimes.  The three factors SPre(A) on space
3, SPost(B) on space 1 and a symbol on space 2 are pairwise commuting
(pairwise disjoint spaces), yet the SPre-before-SPost override makes the
order key cyclic across the three (SPre < SPost by the override,
SPost < symbol and symbol < SPre by space keys), so the stable sort —
and hence the canonical node — depends on the insertion order: the two
permutations below construct different canonical nodes. -/
theorem commutative_reordering_instability :
    List.Perm
      [SOp.sPre (OpA.osym (0, 3)), SOp.sPost (OpA.osym (1, 1)), SOp.sym 2 2]
      [SOp.sym 2 2, SOp.sPost (OpA.osym (1, 1)), SOp.sPre (OpA.osym (0, 3))] ∧
    disjointSp (SOp.sPre (OpA.osym (0, 3))).space
      (SOp.sPost (OpA.osym (1, 1))).space = true ∧
    disjointSp (SOp.sPre (OpA.osym (0, 3))).space (SOp.sym 2 2).space = true ∧
    disjointSp (SOp.sPost (OpA.osym (1, 1))).space (SOp.sym 2 2).space = true ∧
    soTimesCreateFull 1
        [SOp.sPre (OpA.osym (0, 3)), SOp.sPost (OpA.osym (1, 1)), SOp.sym 2 2]
      = SOp.timesS
          [SOp.sym 2 2, SOp.sPre (OpA.osym (0, 3)), SOp.sPost (OpA.osym (1, 1))] ∧
    soTimesCreateFull 1
        [SOp.sym 2 2, SOp.sPost (OpA.osym (1, 1)), SOp.sPre (OpA.osym (0, 3))]
      = SOp.timesS
          [SOp.sPre (OpA.osym (0, 3)), SOp.sPost (OpA.osym (1, 1)), SOp.sym 2 2] ∧
    soTimesCreateFull 1
        [SOp.sPre (OpA.osym (0, 3)), SOp.sPost (OpA.osym (1, 1)), SOp.sym 2 2]
      ≠ soTimesCreateFull 1
        [SOp.sym 2 2, SOp.sPost (OpA.osym (1, 1)), SOp.sPre (OpA.osym (0, 3))] := by
  decide

/-- Helper for the permutation-stability theorem: the orderby stage maps
two permutations of the same children to the same sorted list whenever
the order key restricted to those children is transitive, total, and
antisymmetric up to equality. -/
theorem orderby_eq_of_perm (lt : SOp → SOp → Bool) (l l2 : List SOp)
    (hperm : List.Perm l l2)
    (htrans : ∀ a ∈ l, ∀ b ∈ l, ∀ c ∈ l,
      leOf lt a b = true → leOf lt b c = true → leOf lt a c = true)
    (htot : ∀ a ∈ l, ∀ b ∈ l, leOf lt a b = true ∨ leOf lt b a = true)
    (hanti : ∀ a ∈ l, ∀ b ∈ l,
      leOf lt a b = true → leOf lt b a = true → a = b) :
    orderby lt l = orderby lt l2 := by
  unfold orderby
  refine pairwise_perm_eq (leOf lt) (fun z => z ∈ l)
    (fun a b ha hb => hanti a ha b hb) _ _
    (((insSort_perm _ _).trans hperm).trans (insSort_perm _ _).symm)
    (fun y hy => insSort_mem.mp hy) ?_ ?_
  · exact insSort_pairwise _ (fun z => z ∈ l)
      (fun a b c ha hb hc => htrans a ha b hb c hc)
      (fun a b ha hb => htot a ha b hb) _ (fun y hy => hy)
  · exact insSort_pairwise _ (fun z => z ∈ l)
      (fun a b c ha hb hc => htrans a ha b hb c hc)
      (fun a b ha hb => htot a ha b hb) _
      (fun y hy => hperm.mem_iff.mpr hy)

/-- C6, amended: for every commutative kind, constructing with any
permutation of pairwise-commuting children yields the same canonical
node PROVIDED the kind's order key is consistent on those children:
transitive, total, and antisymmetric up to equality (ties only between
equal children).  The first conjunct covers the SuperOperatorTimes
pipeline (assoc, orderby, filter_neutral, match_replace_binary, with the
zero shortcut), the second the SuperOperatorPlus pipeline (assoc,
orderby, collect_summands, match_replace_binary).  The
SuperOperatorTimes SPre-before-SPost override can violate transitivity
across disjoint spaces, and permutation stability then fails (see the
counterexample). -/
theorem commutative_reordering_stability_amended :
    (∀ (lt : SOp → SOp → Bool) (rules : List (SOp → SOp → Option SOp))
        (l l2 : List SOp), List.Perm l l2 →
      (∀ a ∈ flattenTimes l, ∀ b ∈ flattenTimes l, ∀ c ∈ flattenTimes l,
        leOf lt a b = true → leOf lt b c = true → leOf lt a c = true) →
      (∀ a ∈ flattenTimes l, ∀ b ∈ flattenTimes l,
        leOf lt a b = true ∨ leOf lt b a = true) →
      (∀ a ∈ flattenTimes l, ∀ b ∈ flattenTimes l,
        leOf lt a b = true → leOf lt b a = true → a = b) →
      soTimesCreate lt rules l = soTimesCreate lt rules l2) ∧
    (∀ (lt : SOp → SOp → Bool) (rules : List (SOp → SOp → Option SOp))
        (l l2 : List SOp), List.Perm l l2 →
      (∀ a ∈ flattenPlus l, ∀ b ∈ flattenPlus l, ∀ c ∈ flattenPlus l,
        leOf lt a b = true → leOf lt b c = true → leOf lt a c = true) →
      (∀ a ∈ flattenPlus l, ∀ b ∈ flattenPlus l,
        leOf lt a b = true ∨ leOf lt b a = true) →
      (∀ a ∈ flattenPlus l, ∀ b ∈ flattenPlus l,
        leOf lt a b = true → leOf lt b a = true → a = b) →
      soPlusCreate lt rules l = soPlusCreate lt rules l2) := by
  constructor
  · intro lt rules l l2 hperm htrans htot hanti
    have hflat : List.Perm (flattenTimes l) (flattenTimes l2) := by
      unfold flattenTimes
      exact hperm.flatMap_right _
    have hsort := orderby_eq_of_perm lt (flattenTimes l) (flattenTimes l2)
      hflat htrans htot hanti
    have hcont : l.contains SOp.zeroS = l2.contains SOp.zeroS := by
      rw [Bool.eq_iff_iff, List.elem_iff, List.elem_iff]
      exact hperm.mem_iff
    unfold soTimesCreate
    rw [hcont, hsort]
  · intro lt rules l l2 hperm htrans htot hanti
    have hflat : List.Perm (flattenPlus l) (flattenPlus l2) := by
      unfold flattenPlus
      exact hperm.flatMap_right _
    have hsort := orderby_eq_of_perm lt (flattenPlus l) (flattenPlus l2)
      hflat htrans htot hanti
    unfold soPlusCreate
    rw [hsort]

/-- Witness for the amended C6: two pairwise-commuting symbols on
disjoint spaces, constructed in both orders under the SuperOperatorTimes
key (consistent on these two children), give the same canonical product
node and the same canonical sum node. -/
theorem commutative_reordering_stability_amended_witness :
    soTimesCreate superCommutativeHSOrderLt [] [SOp.sym 0 1, SOp.sym 1 2]
      = soTimesCreate superCommutativeHSOrderLt [] [SOp.sym 1 2, SOp.sym 0 1] ∧
    soPlusCreate superCommutativeHSOrderLt [] [SOp.sym 0 1, SOp.sym 1 2]
      = soPlusCreate superCommutativeHSOrderLt [] [SOp.sym 1 2, SOp.sym 0 1] :=
  ⟨commutative_reordering_stability_amended.1 superCommutativeHSOrderLt []
      [SOp.sym 0 1, SOp.sym 1 2] [SOp.sym 1 2, SOp.sym 0 1]
      (List.Perm.swap _ _ _) (by decide) (by decide) (by decide),
    commutative_reordering_stability_amended.2 superCommutativeHSOrderLt []
      [SOp.sym 0 1, SOp.sym 1 2] [SOp.sym 1 2, SOp.sym 0 1]
      (List.Perm.swap _ _ _) (by decide) (by decide) (by decide)⟩

/-! ### Supporting lemmas about flattening, filtering, and invariant
preservation through the binary scan. -/

theorem flattenTimes_eq_self :
    ∀ l : List SOp, (∀ x ∈ l, x.isTimes = false) → flattenTimes l = l
  | [], _ => rfl
  | x :: xs, h => by
      have hx := h x (by simp)
      have hrec := flattenTimes_eq_self xs (fun z hz => h z (by simp [hz]))
      unfold flattenTimes at *
      cases x <;> simp_all [SOp.isTimes]

theorem flattenPlus_eq_self :
    ∀ l : List SOp, (∀ x ∈ l, x.isPlus = false) → flattenPlus l = l
  | [], _ => rfl
  | x :: xs, h => by
      have hx := h x (by simp)
      have hrec := flattenPlus_eq_self xs (fun z hz => h z (by simp [hz]))
      unfold flattenPlus at *
      cases x <;> simp_all [SOp.isPlus]

theorem mem_flattenTimes_of_mem {l : List SOp} {x : SOp} (hx : x ∈ l)
    (hnt : x.isTimes = false) : x ∈ flattenTimes l := by
  unfold flattenTimes
  refine List.mem_flatMap.mpr ⟨x, hx, ?_⟩
  cases x <;> simp_all [SOp.isTimes]

theorem wrapWith_of_two_le (mk : List SOp → SOp) (neutral : SOp) :
    ∀ l : List SOp, 2 ≤ l.length → wrapWith mk neutral l = mk l
  | [], h => by simp at h
  | [a], h => by simp at h
  | a :: b :: t, _ => rfl

theorem splice_pairwise (le : SOp → SOp → Bool) (xs ys : List SOp)
    (a b r : SOp)
    (hpw : List.Pairwise (fun u v => le u v = true) (xs ++ a :: b :: ys))
    (hca : ∀ z, le z a = true → le z r = true)
    (hcb : ∀ z, le b z = true → le r z = true) :
    List.Pairwise (fun u v => le u v = true) (xs ++ r :: ys) := by
  rw [List.pairwise_append] at hpw
  obtain ⟨hxs, htail, hcross⟩ := hpw
  rw [List.pairwise_cons] at htail
  obtain ⟨harel, htail2⟩ := htail
  rw [List.pairwise_cons] at htail2
  obtain ⟨hbrel, hys⟩ := htail2
  rw [List.pairwise_append]
  refine ⟨hxs, ?_, ?_⟩
  · rw [List.pairwise_cons]
    exact ⟨fun y hy => hcb y (hbrel y hy), hys⟩
  · intro u hu v hv
    rcases List.mem_cons.mp hv with hv | hv
    · exact hv ▸ hca u (hcross u hu a (by simp))
    · exact hcross u hu v (by simp [hv])

theorem mrbFuel_preserve (rules : List (SOp → SOp → Option SOp))
    (p : SOp → Prop)
    (hrp : ∀ a b r, tryRulesBin rules a b = some r → p r) :
    ∀ (fuel : Nat) (l : List SOp), (∀ x ∈ l, p x) →
      ∀ x ∈ mrbFuel fuel rules l, p x := by
  intro fuel
  induction fuel with
  | zero => intro l h; simpa [mrbFuel] using h
  | succ f ih =>
      intro l h
      simp only [mrbFuel]
      cases hfp : findPair rules l with
      | none => exact h
      | some q =>
          obtain ⟨i, r⟩ := q
          obtain ⟨xs, a, b, ys, hl, hlen, htr⟩ := findPair_split rules l i r hfp
          have hsplice : splicePair l i r = xs ++ r :: ys := by
            rw [hl, ← hlen]
            exact splicePair_eq xs ys a b r
          refine ih (splicePair l i r) ?_
          intro x hx
          rw [hsplice] at hx
          rcases List.mem_append.mp hx with hx | hx
          · exact h x (by rw [hl]; exact List.mem_append.mpr (Or.inl hx))
          · rcases List.mem_cons.mp hx with hx | hx
            · exact hx ▸ hrp a b r htr
            · exact h x (by rw [hl]; simp [hx])

theorem mrbFuel_pairwise (rules : List (SOp → SOp → Option SOp))
    (le : SOp → SOp → Bool)
    (hcompat : ∀ a b r, tryRulesBin rules a b = some r →
      ∀ z, (le z a = true → le z r = true) ∧ (le b z = true → le r z = true)) :
    ∀ (fuel : Nat) (l : List SOp),
      List.Pairwise (fun u v => le u v = true) l →
      List.Pairwise (fun u v => le u v = true) (mrbFuel fuel rules l) := by
  intro fuel
  induction fuel with
  | zero => intro l h; simpa [mrbFuel] using h
  | succ f ih =>
      intro l h
      simp only [mrbFuel]
      cases hfp : findPair rules l with
      | none => exact h
      | some q =>
          obtain ⟨i, r⟩ := q
          obtain ⟨xs, a, b, ys, hl, hlen, htr⟩ := findPair_split rules l i r hfp
          have hsplice : splicePair l i r = xs ++ r :: ys := by
            rw [hl, ← hlen]
            exact splicePair_eq xs ys a b r
          refine ih (splicePair l i r) ?_
          rw [hsplice]
          rw [hl] at h
          exact splice_pairwise le xs ys a b r h
            (fun z => (hcompat a b r htr z).1)
            (fun z => (hcompat a b r htr z).2)

/-- C1, counterexample: canonical construction is NOT idempotent on every
canonical node.  With the registered SuperOperatorTimes key and binary
rules, create on [SPre(A) on space 13, SPost(B) on space 11, symbol on
space 12] returns the canonical node Times(symbol, SPre, SPost); calling
create again on that node's own args returns Times(SPost, symbol, SPre),
a different node.  The SPre-before-SPost override makes the order key
cyclic on these three children (SPre < SPost by the override, SPost <
symbol and symbol < SPre by space keys), so the stable sort of the
node's own children moves them again. -/
theorem create_idempotence_fails_on_cyclic_key :
    soTimesCreateFull 1
        [SOp.sPre (OpA.osym (0, 13)), SOp.sPost (OpA.osym (1, 11)), SOp.sym 2 12]
      = SOp.timesS
          [SOp.sym 2 12, SOp.sPre (OpA.osym (0, 13)), SOp.sPost (OpA.osym (1, 11))] ∧
    soTimesCreateFull 1
        [SOp.sym 2 12, SOp.sPre (OpA.osym (0, 13)), SOp.sPost (OpA.osym (1, 11))]
      = SOp.timesS
          [SOp.sPost (OpA.osym (1, 11)), SOp.sym 2 12, SOp.sPre (OpA.osym (0, 13))] ∧
    soTimesCreateFull 1
        [SOp.sym 2 12, SOp.sPre (OpA.osym (0, 13)), SOp.sPost (OpA.osym (1, 11))]
      ≠ SOp.timesS
          [SOp.sym 2 12, SOp.sPre (OpA.osym (0, 13)), SOp.sPost (OpA.osym (1, 11))] := by
  decide

/-- C1, amended: canonical reconstruction is idempotent on every
canonical node whose children the kind's order key orders consistently
and whose binary rules replace pairs by order-respecting non-operation,
non-neutral, non-zero nodes.  First part (SuperOperatorTimes, derived
from the image of create): whenever the pipeline canonicalizes raw
operands args to the child list ca of an operation node — under the
conditions that the order key is consistent (transitive, total) on the
flattened operands, that the binary-rule handlers return replacements
that are not nested operations, not the neutral element, not the zero
singleton, and that respect the order position of the pair they replace,
and that the raw operands are canonical children (flattening exposes no
nested product and no zero) — create(args) returns the node Times(ca)
and re-running create on that node's own args returns the same node.
Second part (SuperOperatorPlus, stated through the canonical-form
invariants that create establishes: children pairwise ordered, no nested
sum, collect_summands-stable, no binary rule applicable): create on the
node's own args rebuilds the node unchanged.  On children where the
SPre-before-SPost override makes the key cyclic, the consistency
hypotheses fail and so does idempotence (see the counterexample). -/
theorem create_idempotent_on_canonical :
    (∀ (lt : SOp → SOp → Bool) (rules : List (SOp → SOp → Option SOp))
        (args ca : List SOp),
      (∀ a ∈ flattenTimes args, ∀ b ∈ flattenTimes args,
        ∀ c ∈ flattenTimes args, leOf lt a b = true → leOf lt b c = true →
        leOf lt a c = true) →
      (∀ a ∈ flattenTimes args, ∀ b ∈ flattenTimes args,
        leOf lt a b = true ∨ leOf lt b a = true) →
      (∀ a b r, tryRulesBin rules a b = some r →
        r.isTimes = false ∧ r ≠ SOp.oneS ∧ r ≠ SOp.zeroS) →
      (∀ a b r, tryRulesBin rules a b = some r →
        ∀ z, (leOf lt z a = true → leOf lt z r = true) ∧
          (leOf lt b z = true → leOf lt r z = true)) →
      (∀ x ∈ flattenTimes args, x.isTimes = false) →
      SOp.zeroS ∉ flattenTimes args →
      match_replace_binary rules
        (filter_neutral SOp.oneS (orderby lt (flattenTimes args))) = ca →
      2 ≤ ca.length →
      soTimesCreate lt rules args = SOp.timesS ca ∧
        soTimesCreate lt rules ca = SOp.timesS ca) ∧
    (∀ (lt : SOp → SOp → Bool) (rules : List (SOp → SOp → Option SOp))
        (ca : List SOp),
      List.Pairwise (fun a b => leOf lt a b = true) ca →
      (∀ x ∈ ca, x.isPlus = false) →
      collect_summands ca = ca →
      findPair rules ca = none →
      2 ≤ ca.length →
      soPlusCreate lt rules ca = SOp.plusS ca) := by
  constructor
  · intro lt rules args ca htrans htot hshape hcompat hflat hzero hscan hlen
    have hzargs : args.contains SOp.zeroS = false := by
      rw [Bool.eq_false_iff]
      intro hc
      exact hzero (mem_flattenTimes_of_mem (List.elem_iff.mp hc) rfl)
    have hpw_sorted : List.Pairwise (fun a b => leOf lt a b = true)
        (orderby lt (flattenTimes args)) :=
      insSort_pairwise (leOf lt) (fun z => z ∈ flattenTimes args)
        (fun a b c ha hb hc => htrans a ha b hb c hc)
        (fun a b ha hb => htot a ha b hb)
        (flattenTimes args) (fun y hy => hy)
    have hpw_filtered : List.Pairwise (fun a b => leOf lt a b = true)
        (filter_neutral SOp.oneS (orderby lt (flattenTimes args))) :=
      hpw_sorted.filter _
    have hpw_ca : List.Pairwise (fun a b => leOf lt a b = true) ca := by
      rw [← hscan]
      exact mrbFuel_pairwise rules (leOf lt) hcompat _ _ hpw_filtered
    have hca_props : ∀ x ∈ ca,
        x.isTimes = false ∧ x ≠ SOp.oneS ∧ x ≠ SOp.zeroS := by
      rw [← hscan]
      refine mrbFuel_preserve rules _ hshape _ _ ?_
      intro x hx
      have hx2 := List.mem_filter.mp hx
      have hxs : x ∈ flattenTimes args := insSort_mem.mp hx2.1
      refine ⟨hflat x hxs, ?_, fun he => hzero (he ▸ hxs)⟩
      intro he
      rw [he] at hx2
      simp at hx2
    have hfirst : soTimesCreate lt rules args = SOp.timesS ca := by
      unfold soTimesCreate
      rw [hzargs]
      simp only [Bool.false_eq_true, if_false]
      rw [hscan]
      exact wrapWith_of_two_le _ _ ca hlen
    refine ⟨hfirst, ?_⟩
    have hzca : ca.contains SOp.zeroS = false := by
      rw [Bool.eq_false_iff]
      intro hc
      exact (hca_props _ (List.elem_iff.mp hc)).2.2 rfl
    unfold soTimesCreate
    rw [hzca]
    simp only [Bool.false_eq_true, if_false]
    rw [flattenTimes_eq_self ca (fun x hx => (hca_props x hx).1)]
    unfold orderby
    rw [insSort_of_pairwise (leOf lt) ca hpw_ca]
    have hfilter : filter_neutral SOp.oneS ca = ca := by
      unfold filter_neutral
      refine List.filter_eq_self.mpr ?_
      intro x hx
      exact bne_iff_ne.mpr (hca_props x hx).2.1
    rw [hfilter]
    have hfix : findPair rules ca = none := by
      rw [← hscan]
      exact match_replace_binary_fixpoint rules _
    rw [match_replace_binary_nomatch rules ca hfix]
    exact wrapWith_of_two_le _ _ ca hlen
  · intro lt rules ca hpw hnp hcollect hnomatch hlen
    unfold soPlusCreate
    rw [flattenPlus_eq_self ca hnp]
    unfold orderby
    rw [insSort_of_pairwise (leOf lt) ca hpw]
    rw [hcollect]
    rw [match_replace_binary_nomatch rules ca hnomatch]
    exact wrapWith_of_two_le _ _ ca hlen

/-- Inversion for the example projection-style binary rule that merges
two copies of one fixed symbol into that same symbol (in the spirit of
the x * x rewrites of the scalar tables): the rule fires only on that
pair and returns that symbol, so its replacements trivially satisfy the
shape and order-compatibility conditions of the reconstruction theorem. -/
theorem mergeRule_inv {a b r : SOp}
    (h : tryRulesBin
        [fun a b => if a == SOp.sym 9 9 && b == SOp.sym 9 9
          then some (SOp.sym 9 9) else none] a b = some r) :
    a = SOp.sym 9 9 ∧ b = SOp.sym 9 9 ∧ r = SOp.sym 9 9 := by
  simp only [tryRulesBin] at h
  by_cases hc : (a == SOp.sym 9 9 && b == SOp.sym 9 9) = true
  · rw [Bool.and_eq_true] at hc
    have ha : a = SOp.sym 9 9 := by simpa using hc.1
    have hb : b = SOp.sym 9 9 := by simpa using hc.2
    rw [ha, hb] at h
    simp at h
    exact ⟨ha, hb, h.symm⟩
  · rw [Bool.not_eq_true] at hc
    simp [hc] at h

/-- Witness for the amended C1: with the SuperOperatorTimes key and a
nonempty, condition-respecting binary-rule table (merging duplicate
occurrences of one symbol), create canonicalizes three raw operands to a
two-child product node, and re-running create on the node's own children
reproduces the node; likewise a canonical two-summand sum rebuilds to
itself. -/
theorem create_idempotent_on_canonical_witness :
    soTimesCreate superCommutativeHSOrderLt
        [fun a b => if a == SOp.sym 9 9 && b == SOp.sym 9 9
          then some (SOp.sym 9 9) else none]
        [SOp.sym 9 9, SOp.sym 9 9, SOp.sym 0 1]
      = SOp.timesS [SOp.sym 0 1, SOp.sym 9 9] ∧
    soTimesCreate superCommutativeHSOrderLt
        [fun a b => if a == SOp.sym 9 9 && b == SOp.sym 9 9
          then some (SOp.sym 9 9) else none]
        [SOp.sym 0 1, SOp.sym 9 9]
      = SOp.timesS [SOp.sym 0 1, SOp.sym 9 9] ∧
    soPlusCreate superCommutativeHSOrderLt [] [SOp.sym 0 1, SOp.sym 1 1]
      = SOp.plusS [SOp.sym 0 1, SOp.sym 1 1] := by
  have hmain := create_idempotent_on_canonical.1 superCommutativeHSOrderLt
    [fun a b => if a == SOp.sym 9 9 && b == SOp.sym 9 9
      then some (SOp.sym 9 9) else none]
    [SOp.sym 9 9, SOp.sym 9 9, SOp.sym 0 1] [SOp.sym 0 1, SOp.sym 9 9]
    (by decide) (by decide)
    (fun a b r h => by
      obtain ⟨ha, hb, hr⟩ := mergeRule_inv h
      subst hr
      exact ⟨rfl, by decide, by decide⟩)
    (fun a b r h => by
      obtain ⟨ha, hb, hr⟩ := mergeRule_inv h
      subst ha
      subst hb
      subst hr
      exact fun z => ⟨id, id⟩)
    (by decide) (by decide) (by decide) (by decide)
  exact ⟨hmain.1, hmain.2,
    create_idempotent_on_canonical.2 superCommutativeHSOrderLt []
      [SOp.sym 0 1, SOp.sym 1 1]
      (by decide) (by decide) (by decide) (by decide) (by decide)⟩

end QalgebraProof
